import Mathlib

/-!
Shallow embedding of the Netpbm image codec of dmtools
(src/dmtools/netpbm.py and src/dmtools/ascii.py).

Python text is modelled as `List Char`, a file opened in text mode as the
list of its lines (each line without its trailing newline character; the
newline is whitespace and never affects tokenization), and a file opened
in binary mode as a `List Nat` of its bytes.  Integer samples are `Nat`:
every sample produced by the decoder is a nonnegative integer, and the
numerals handled by the claims are unsigned.  Failure of a Python
operation (ValueError, IndexError, a failing numpy reshape, ...) is
modelled by `Option`, with `none` for any raised exception.
-/

/-- Model of `str(d)` for a single decimal digit `d < 10` (the default
case is never reached by the functions below, which only call it on
`n % 10`). -/
def digitChar : Nat → Char
  | 0 => '0' | 1 => '1' | 2 => '2' | 3 => '3' | 4 => '4'
  | 5 => '5' | 6 => '6' | 7 => '7' | 8 => '8' | _ => '9'

/-- Model of Python `int(c)` on a one-character string: the digit value,
or a ValueError (`none`) for any non-digit character. -/
def parseDigit (c : Char) : Option Nat :=
  if '0' ≤ c ∧ c ≤ '9' then some (c.toNat - '0'.toNat) else none

/-- Fuel-driven digit printer (the fuel only makes the recursion
structural; `natReprAux_congr` shows any sufficient fuel gives the same
result). -/
def natReprAux : Nat → Nat → List Char
  | 0, _ => []
  | fuel + 1, n =>
    if n < 10 then [digitChar n]
    else natReprAux fuel (n / 10) ++ [digitChar (n % 10)]

/-- Decimal representation of a natural number, most significant digit
first; model of Python `str(n)` / `"%s" % n` for a nonnegative int. -/
def natRepr (n : Nat) : List Char := natReprAux (n + 1) n

theorem natReprAux_congr : ∀ (f₁ f₂ n : Nat), n < f₁ → n < f₂ →
    natReprAux f₁ n = natReprAux f₂ n := by
  intro f₁
  induction f₁ with
  | zero => intro f₂ n h1 _; omega
  | succ f ih =>
    intro f₂ n h1 h2
    cases f₂ with
    | zero => omega
    | succ f' =>
      simp only [natReprAux]
      by_cases hn : n < 10
      · rw [if_pos hn, if_pos hn]
      · rw [if_neg hn, if_neg hn]
        congr 1
        exact ih f' (n / 10) (by omega) (by omega)

theorem natRepr_eq_of_lt {n : Nat} (h : n < 10) : natRepr n = [digitChar n] := by
  unfold natRepr
  simp only [natReprAux]
  rw [if_pos h]

theorem natRepr_eq_of_ge {n : Nat} (h : ¬ n < 10) :
    natRepr n = natRepr (n / 10) ++ [digitChar (n % 10)] := by
  unfold natRepr
  simp only [natReprAux]
  rw [if_neg h]
  congr 1
  exact natReprAux_congr n (n / 10 + 1) (n / 10) (by omega) (by omega)

/-- Accumulating digit parser: folds decimal digits onto `acc`, failing on
the first non-digit character. -/
def parseNatAux (acc : Nat) : List Char → Option Nat
  | [] => some acc
  | c :: cs =>
    match parseDigit c with
    | some d => parseNatAux (10 * acc + d) cs
    | none => none

/-- Model of Python `int(s)` restricted to unsigned decimal numerals:
`none` on the empty string or on any non-digit character (ValueError).
The sign, underscore and surrounding-whitespace tolerance of `int` is not
modelled; no token handled by the theorems below uses those forms. -/
def parseNatTok (cs : List Char) : Option Nat :=
  match cs with
  | [] => none
  | _ => parseNatAux 0 cs

/-- Model of `' '.join(ts)` for a list of strings. -/
def joinSp : List (List Char) → List Char
  | [] => []
  | [t] => t
  | t :: ts => t ++ ' ' :: joinSp ts

/-- Accumulator-based whitespace splitter; `acc` holds the characters of
the word currently being read, in reverse. -/
def wordsAux : List Char → List Char → List (List Char)
  | [], acc => if acc = [] then [] else [acc.reverse]
  | c :: cs, acc =>
    if c.isWhitespace then
      if acc = [] then wordsAux cs [] else acc.reverse :: wordsAux cs []
    else wordsAux cs (c :: acc)

/-- Model of Python `s.split()` (no argument): split on runs of
whitespace, discarding empty tokens. -/
def words (cs : List Char) : List (List Char) := wordsAux cs []

/-- Model of `line.split('#')[0]`: everything before the first `'#'`. -/
def stripComment (l : List Char) : List Char := l.takeWhile (fun c => c != '#')

/-- Tokens contributed by one line of an ASCII Netpbm file:
`line.split('#')[0].split()` from `_parse_ascii_netpbm`. -/
def lineTokens (l : List Char) : List (List Char) := words (stripComment l)

/-- Model of a Python list comprehension `[f(x) for x in l]` whose body
can raise: fails (raises) as soon as one element fails. -/
def mapOpt (g : α → Option β) : List α → Option (List β)
  | [] => some []
  | x :: xs =>
    match g x with
    | none => none
    | some y =>
      match mapOpt g xs with
      | none => none
      | some ys => some (y :: ys)

/-- Split a list into `h` consecutive chunks of length `w`; model of the
row structure produced by `numpy.reshape(h, w)` (used only behind the
exact-length check of `reshape2`/`reshape3`). -/
def chunks2 : Nat → Nat → List α → List (List α)
  | 0, _, _ => []
  | h + 1, w, xs => xs.take w :: chunks2 h w (xs.drop w)

/-- Group a flat list into consecutive triples; model of the innermost
axis of `numpy.reshape(h, w, 3)` (used only behind an exact-length check,
so the catch-all arm for a ragged tail is never reached there). -/
def chunks3 : List α → List (List α)
  | a :: b :: c :: rest => [a, b, c] :: chunks3 rest
  | [] => []
  | rest => [rest]

/-- Model of `np.array(vals).reshape(h, w)`: fails (ValueError) unless the
flat buffer has exactly `h * w` entries. -/
def reshape2 (h w : Nat) (xs : List Nat) : Option (List (List Nat)) :=
  if xs.length = h * w then some (chunks2 h w xs) else none

/-- Model of `np.array(vals).reshape(h, w, 3)`: fails (ValueError) unless
the flat buffer has exactly `h * w * 3` entries.  Element `(i, j, c)` of
the result is flat entry `i*w*3 + j*3 + c` (row-major, channel-minor). -/
def reshape3 (h w : Nat) (xs : List Nat) : Option (List (List (List Nat))) :=
  if xs.length = h * w * 3 then some (chunks2 h w (chunks3 xs)) else none

/-- The pixel buffer of a `Netpbm` object: a 2-dimensional `numpy` array
for the bitmap/graymap formats, a 3-dimensional one for pixmaps.
Rectangularity (all rows of equal length, all pixels of three samples) is
an invariant of every `numpy` array; here it is carried as a hypothesis
(`valid`) where needed. -/
inductive Mat where
  | gray : List (List Nat) → Mat
  | color : List (List (List Nat)) → Mat
deriving DecidableEq

/-- Number of rows, `M.shape[0]`. -/
def Mat.h : Mat → Nat
  | Mat.gray rows => rows.length
  | Mat.color rows => rows.length

/-- Number of columns, `M.shape[1]` (length of the first row; for a
rectangular array this is the common row length). -/
def Mat.w : Mat → Nat
  | Mat.gray rows => (rows.headD []).length
  | Mat.color rows => (rows.headD []).length

/-- Elementwise map over the sample buffer (a numpy universal function
application). -/
def Mat.map (f : Nat → Nat) : Mat → Mat
  | Mat.gray rows => Mat.gray (rows.map (fun row => row.map f))
  | Mat.color rows => Mat.color (rows.map (fun row => row.map (fun px => px.map f)))

/-- The `Netpbm` class of src/dmtools/netpbm.py: magic number `P`,
maximum gray/color value `k`, and pixel array `M`.  The `h`/`w`
attributes are always `M.shape[:2]` at construction and every operation
preserves the shape, so they are modelled as the derived `Mat.h`/`Mat.w`
rather than stored. -/
structure Netpbm where
  P : Nat
  k : Nat
  M : Mat
deriving DecidableEq

/-- Per-sample result of `((self.M / self.k) > 0.5).astype(int)` in
`set_max_color_value` for `k == 1`.  When `self.k = 0`, numpy float
division yields `inf` for a positive sample (`inf > 0.5` is true) and
`nan` for a zero sample (`nan > 0.5` is false), with a warning but no
exception; otherwise `x / kOld > 0.5` iff `2 * x > kOld` exactly. -/
def threshSample (kOld x : Nat) : Nat :=
  if kOld = 0 then (if 0 < x then 1 else 0)
  else if kOld < 2 * x then 1 else 0

/-- Per-sample result of `x // step` in `set_max_color_value`.  numpy
integer floor division by zero yields 0 (with a warning, no exception),
which coincides with `Nat` division by zero. -/
def quantSample (step x : Nat) : Nat := x / step

/-- Model of `Netpbm.set_max_color_value(self, k)`.  The source mutates
`self.M` in place; the model returns the updated object.  Faithful
details: the line `self.P == 1` under `if self.P == 2:` is a comparison,
not an assignment, so `P` is never changed; `self.k` is never assigned
either; `step = int(self.k / k)` raises ZeroDivisionError iff `k == 0`
(for `k ≥ 2` it equals `self.k / k` in integer division). -/
def Netpbm.set_max_color_value (r : Netpbm) (k : Nat) : Option Netpbm :=
  if k = 1 then
    some ⟨r.P, r.k, r.M.map (threshSample r.k)⟩
  else if k = 0 then
    none
  else
    some ⟨r.P, r.k, r.M.map (quantSample (r.k / k))⟩

/-- Modelled from the spec: `change_gradient` is called by
src/dmtools/ascii.py as `netpbm.change_gradient(image, len(chars)-1)` but
is not among the provided source files; spec section 4.2 describes it as a
thin composition that calls `set_max_color_value(raster, levels)` and
returns the remapped raster. -/
def change_gradient (image : Netpbm) (n : Nat) : Option Netpbm :=
  image.set_max_color_value n

/-- The per-sample function applied to every sample by
`change_gradient r levels` (threshold branch for `levels = 1`, integer
division by `step = r.k / levels` otherwise). -/
def gradientMap (kOld levels x : Nat) : Nat :=
  if levels = 1 then threshSample kOld x else quantSample (kOld / levels) x

/-- The ASCII-art palette of `netpbm_to_ascii`:
`chars = "  -~:;=!*#$@"` (12 characters). -/
def chars : List Char := "  -~:;=!*#$@".toList

/-- Model of `netpbm_to_ascii` from src/dmtools/ascii.py: quantize with
`change_gradient(image, len(chars)-1)` and map every sample `i` to
`chars[i]`.  An out-of-range sample raises IndexError (`none`); a
3-dimensional (color) buffer makes `chars[i]` receive an array index,
raising TypeError (`none`). -/
def netpbm_to_ascii (r : Netpbm) : Option (List (List Char)) :=
  match change_gradient r (chars.length - 1) with
  | none => none
  | some q =>
    match q.M with
    | Mat.gray rows => mapOpt (fun row => mapOpt (fun i => chars[i]?) row) rows
    | Mat.color _ => none

/-- The 2-dimensional row buffer written by `to_netpbm`: `self.M`, except
that a pixmap is first reshaped to `(h, w*3)` (each row's pixels
concatenated). -/
def rowsOf (r : Netpbm) : List (List Nat) :=
  match r.M with
  | Mat.gray rows => rows
  | Mat.color rows => rows.map List.flatten

/-- Model of `Netpbm.to_netpbm`, which always writes the ASCII (plain)
formats: the result is the list of lines of the written file (the source
writes them separated by `'\n'` with one trailing newline).  Lines:
`P%d`, `w h`, the max value `k` unless `P == 1`, then one line per pixel
row with space-separated samples clamped by `clip(0, k)` (for `Nat`
samples the lower clamp is vacuous and the upper clamp is `min`). -/
def Netpbm.to_netpbm (r : Netpbm) : List (List Char) :=
  ('P' :: natRepr r.P) ::
  (natRepr r.M.w ++ ' ' :: natRepr r.M.h) ::
  ((if r.P = 1 then [] else [natRepr r.k]) ++
    (rowsOf r).map (fun row => joinSp (row.map (fun x => natRepr (min x r.k)))))

/-- The token stream of `_parse_ascii_netpbm`:
`vals = [v for line in f for v in line.split('#')[0].split()]`. -/
def asciiVals (f : List (List Char)) : List (List Char) :=
  (f.map lineTokens).flatten

/-- Body of `_parse_ascii_netpbm` after tokenization: `P = int(vals[0][1])`
(IndexError when the stream is empty or the first token has fewer than two
characters); for `P == 1` read `w, h, *vals` and set `k = 1`, otherwise
read `w, h, k, *vals`; reshape to `(h, w, 3)` when `P == 3`, else to
`(h, w)`. -/
def parseAsciiVals (vals : List (List Char)) : Option Netpbm :=
  match vals with
  | [] => none
  | v0 :: tl =>
    match v0[1]? with
    | none => none
    | some c =>
      match parseDigit c with
      | none => none
      | some P =>
        if P = 1 then
          match mapOpt parseNatTok tl with
          | none => none
          | some ns =>
            match ns with
            | w :: h :: vs =>
              match reshape2 h w vs with
              | none => none
              | some M => some ⟨P, 1, Mat.gray M⟩
            | _ => none
        else
          match mapOpt parseNatTok tl with
          | none => none
          | some ns =>
            match ns with
            | w :: h :: k :: vs =>
              if P = 3 then
                match reshape3 h w vs with
                | none => none
                | some M => some ⟨P, k, Mat.color M⟩
              else
                match reshape2 h w vs with
                | none => none
                | some M => some ⟨P, k, Mat.gray M⟩
            | _ => none

/-- Model of `_parse_ascii_netpbm(f)` for `f` the list of lines of the
file. -/
def parse_ascii_netpbm (f : List (List Char)) : Option Netpbm :=
  parseAsciiVals (asciiVals f)

/-- Model of `f.readline()` on a binary stream: the bytes up to and
including the first newline (byte 10), and the remainder; at end of input
the partial line has no trailing newline. -/
def readLine : List Nat → List Nat × List Nat
  | [] => ([], [])
  | b :: bs =>
    if b = 10 then ([10], bs)
    else
      let p := readLine bs
      (b :: p.1, p.2)

/-- Model of `bytes.decode()` for ASCII content: fails on any byte ≥ 128
(a lone high byte is invalid UTF-8; no theorem below feeds a multi-byte
UTF-8 sequence to a decoded header). -/
def asciiChars (bs : List Nat) : Option (List Char) :=
  if bs.all (fun b => decide (b < 128)) then some (bs.map Char.ofNat) else none

/-- Model of `_parse_binary_netpbm`: reads `P = int(f.readline().decode()[1])`
then halves it (`P = int(P / 2)`, the source's "change to corresponding
ASCII magic number"), reads `w`, `h` and (unless the halved `P` is 1) `k`
as one newline-terminated numeral per line via `int(line.decode()[:-1])`,
takes all remaining bytes as the flat sample buffer (`np.fromfile`, one
byte per sample, no bit unpacking), and reshapes exactly as the ASCII
parser does. -/
def parse_binary_netpbm (bs : List Nat) : Option Netpbm :=
  let p1 := readLine bs
  match asciiChars p1.1 with
  | none => none
  | some s1 =>
    match s1[1]? with
    | none => none
    | some c =>
      match parseDigit c with
      | none => none
      | some p0 =>
        let P := p0 / 2
        let p2 := readLine p1.2
        match asciiChars p2.1 with
        | none => none
        | some s2 =>
          match parseNatTok s2.dropLast with
          | none => none
          | some w =>
            let p3 := readLine p2.2
            match asciiChars p3.1 with
            | none => none
            | some s3 =>
              match parseNatTok s3.dropLast with
              | none => none
              | some h =>
                let kRest : Option (Nat × List Nat) :=
                  if P = 1 then some (1, p3.2)
                  else
                    let p4 := readLine p3.2
                    match asciiChars p4.1 with
                    | none => none
                    | some s4 =>
                      match parseNatTok s4.dropLast with
                      | none => none
                      | some k => some (k, p4.2)
                match kRest with
                | none => none
                | some kr =>
                  if P = 3 then
                    match reshape3 h w kr.2 with
                    | none => none
                    | some M => some ⟨P, kr.1, Mat.color M⟩
                  else
                    match reshape2 h w kr.2 with
                    | none => none
                    | some M => some ⟨P, kr.1, Mat.gray M⟩

/-- Split decoded text into its lines at `'\n'` (text-mode reading; the
split keeps a final empty line when the content ends with a newline, which
contributes no tokens). -/
def splitLinesAux : List Char → List Char → List (List Char)
  | [], acc => [acc.reverse]
  | c :: cs, acc =>
    if c = '\n' then acc.reverse :: splitLinesAux cs []
    else splitLinesAux cs (c :: acc)

/-- Lines of a decoded text buffer. -/
def splitLines (cs : List Char) : List (List Char) := splitLinesAux cs []

/-- Model of `read_netpbm(path)` on the file's bytes: read the first two
bytes and decode them (`f.read(2).decode()`), take `int(magic_number[1])`
(ValueError on a non-digit second character, IndexError on a file shorter
than two bytes), and dispatch: digit ≤ 3 reopens the file in text mode and
runs the ASCII parser, anything else runs the binary parser.  The first
byte of the magic number is never inspected. -/
def read_netpbm (bs : List Nat) : Option Netpbm :=
  match bs with
  | b0 :: b1 :: _ =>
    if b0 < 128 ∧ b1 < 128 then
      match parseDigit (Char.ofNat b1) with
      | none => none
      | some d =>
        if d ≤ 3 then
          match asciiChars bs with
          | none => none
          | some cs => parse_ascii_netpbm (splitLines cs)
        else parse_binary_netpbm bs
    else none
  | _ => none

/-- Bytes of an ASCII string (model of `s.encode()` for ASCII text). -/
def charsToBytes (cs : List Char) : List Nat := cs.map Char.toNat

/-- Modelled from the spec: the source has no binary encoder
(`to_netpbm` writes only the ASCII formats); spec section 4.1 describes
binary encoding as writing the magic number for the binary variant
(P4/P5/P6), width and height each on their own line, the max value line
unless Bitmap, then the clamped samples as a flat sequence of bytes, one
byte per sample, row-major and channel-minor. -/
def encode_binary (r : Netpbm) : List Nat :=
  charsToBytes ('P' :: natRepr (r.P + 3) ++ ['\n']) ++
  charsToBytes (natRepr r.M.w ++ ['\n']) ++
  charsToBytes (natRepr r.M.h ++ ['\n']) ++
  (if r.P = 1 then [] else charsToBytes (natRepr r.k ++ ['\n'])) ++
  (rowsOf r).flatten.map (fun x => min x r.k)

/-- Validity of a raster, following the spec's data model: the magic
number matches the buffer kind (1 or 2 for a 2-dimensional buffer, 3 for
a 3-dimensional one), a bitmap has max value 1, dimensions are positive,
the buffer is rectangular with rows of length `w` (and pixels of three
samples for color), and every sample lies in `[0, k]`. -/
def valid (r : Netpbm) : Bool :=
  match r.M with
  | Mat.gray rows =>
    (decide (r.P = 1) && decide (r.k = 1) || decide (r.P = 2)) &&
    decide (0 < rows.length) && decide (0 < r.M.w) &&
    rows.all (fun row => decide (row.length = r.M.w) &&
      row.all (fun x => decide (x ≤ r.k)))
  | Mat.color rows =>
    decide (r.P = 3) &&
    decide (0 < rows.length) && decide (0 < r.M.w) &&
    rows.all (fun row => decide (row.length = r.M.w) &&
      row.all (fun px => decide (px.length = 3) &&
        px.all (fun x => decide (x ≤ r.k))))

/-- An ASCII graymap file (`P2`) with the given header fields and sample
tokens, as a list of lines. -/
def asciiFileP2 (w h k : Nat) (samples : List Nat) : List (List Char) :=
  [['P', '2'], natRepr w ++ ' ' :: natRepr h, natRepr k,
   joinSp (samples.map natRepr)]

/-- An ASCII pixmap file (`P3`) with the given header fields and sample
tokens, as a list of lines. -/
def asciiFileP3 (w h k : Nat) (samples : List Nat) : List (List Char) :=
  [['P', '3'], natRepr w ++ ' ' :: natRepr h, natRepr k,
   joinSp (samples.map natRepr)]

/-- Header bytes of a binary Netpbm file with the given magic character
and newline-terminated `w`, `h`, `k` lines (`P%c\n`, `w\n`, `h\n`,
`k\n`). -/
def binHeader (magic : Char) (w h k : Nat) : List Nat :=
  ['P'.toNat, magic.toNat, 10] ++ charsToBytes (natRepr w) ++ [10] ++
  charsToBytes (natRepr h) ++ [10] ++ charsToBytes (natRepr k) ++ [10]

/-- A binary graymap file (`P5`): header then raw sample bytes. -/
def binFileP5 (w h k : Nat) (data : List Nat) : List Nat :=
  binHeader '5' w h k ++ data

/-- A line that is entirely a comment: its first non-whitespace character
is `'#'`. -/
def isCommentLine (l : List Char) : Bool :=
  match l.dropWhile Char.isWhitespace with
  | '#' :: _ => true
  | _ => false

/-! Helper lemmas about digits and numerals. -/

theorem parseDigit_digitChar {d : Nat} (hd : d < 10) :
    parseDigit (digitChar d) = some d := by
  interval_cases d <;> decide

theorem digitChar_not_ws {d : Nat} (hd : d < 10) :
    (digitChar d).isWhitespace = false := by
  interval_cases d <;> rfl

theorem digitChar_ne_hash {d : Nat} (hd : d < 10) :
    (digitChar d != '#') = true := by
  interval_cases d <;> rfl

theorem digitChar_toNat_ne_lf {d : Nat} (hd : d < 10) :
    (digitChar d).toNat ≠ 10 := by
  interval_cases d <;> decide

theorem digitChar_toNat_lt {d : Nat} (hd : d < 10) :
    (digitChar d).toNat < 128 := by
  interval_cases d <;> decide

theorem natRepr_ne_nil (n : Nat) : natRepr n ≠ [] := by
  by_cases h : n < 10
  · rw [natRepr_eq_of_lt h]; simp
  · rw [natRepr_eq_of_ge h]; simp

theorem mem_natRepr {c : Char} : ∀ {n : Nat}, c ∈ natRepr n →
    ∃ d, d < 10 ∧ c = digitChar d := by
  intro n
  induction n using Nat.strong_induction_on with
  | _ n ih =>
    intro hc
    by_cases h : n < 10
    · rw [natRepr_eq_of_lt h] at hc
      simp only [List.mem_singleton] at hc
      exact ⟨n, h, hc⟩
    · rw [natRepr_eq_of_ge h, List.mem_append] at hc
      rcases hc with hc | hc
      · exact ih (n / 10) (Nat.div_lt_self (by omega) (by omega)) hc
      · simp only [List.mem_singleton] at hc
        exact ⟨n % 10, Nat.mod_lt _ (by omega), hc⟩

theorem parseNatAux_append : ∀ (xs ys : List Char) (acc : Nat),
    parseNatAux acc (xs ++ ys) =
      match parseNatAux acc xs with
      | some a => parseNatAux a ys
      | none => none := by
  intro xs
  induction xs with
  | nil => intro ys acc; rfl
  | cons c cs ih =>
    intro ys acc
    simp only [List.cons_append, parseNatAux]
    cases parseDigit c with
    | none => rfl
    | some d => exact ih ys (10 * acc + d)

theorem parseNatAux_natRepr : ∀ (n acc : Nat),
    parseNatAux acc (natRepr n) = some (acc * 10 ^ (natRepr n).length + n) := by
  intro n
  induction n using Nat.strong_induction_on with
  | _ n ih =>
    intro acc
    by_cases h : n < 10
    · rw [natRepr_eq_of_lt h]
      simp only [parseNatAux, parseDigit_digitChar h, List.length_singleton]
      congr 1
      ring
    · have hmod : n % 10 < 10 := Nat.mod_lt _ (by omega)
      rw [natRepr_eq_of_ge h, parseNatAux_append,
        ih (n / 10) (Nat.div_lt_self (by omega) (by omega)) acc]
      simp only [parseNatAux, parseDigit_digitChar hmod, List.length_append,
        List.length_singleton]
      congr 1
      have h2 : 10 * (n / 10) + n % 10 = n := Nat.div_add_mod n 10
      calc 10 * (acc * 10 ^ (natRepr (n / 10)).length + n / 10) + n % 10
          = acc * (10 ^ (natRepr (n / 10)).length * 10) +
              (10 * (n / 10) + n % 10) := by ring
        _ = acc * 10 ^ ((natRepr (n / 10)).length + 1) + n := by rw [h2, pow_succ]

theorem parseNatTok_natRepr (n : Nat) : parseNatTok (natRepr n) = some n := by
  have h := parseNatAux_natRepr n 0
  cases hr : natRepr n with
  | nil => exact absurd hr (natRepr_ne_nil n)
  | cons c cs =>
    rw [hr] at h
    show parseNatAux 0 (c :: cs) = some n
    rw [h]
    simp

theorem mapOpt_parseNatTok_natRepr : ∀ (xs : List Nat),
    mapOpt parseNatTok (xs.map natRepr) = some xs := by
  intro xs
  induction xs with
  | nil => rfl
  | cons x xs ih =>
    simp only [List.map_cons, mapOpt, parseNatTok_natRepr x, ih]

/-! Helper lemmas about whitespace splitting and comment stripping. -/

theorem wordsAux_push : ∀ (w cs acc : List Char),
    (∀ c ∈ w, c.isWhitespace = false) →
    wordsAux (w ++ cs) acc = wordsAux cs (w.reverse ++ acc) := by
  intro w
  induction w with
  | nil => intro cs acc _; simp
  | cons c w' ih =>
    intro cs acc hw
    have hc : c.isWhitespace = false := hw c (by simp)
    simp only [List.cons_append, wordsAux, hc, Bool.false_eq_true, if_false]
    have hgoal : wordsAux (w' ++ cs) (c :: acc) = wordsAux cs (w'.reverse ++ (c :: acc)) :=
      ih cs (c :: acc) (fun d hd => hw d (by simp [hd]))
    rw [show (w'.append cs) = w' ++ cs from rfl, hgoal]
    simp [List.append_assoc]

theorem wordsAux_all_ws : ∀ (l : List Char),
    (∀ c ∈ l, c.isWhitespace = true) → wordsAux l [] = [] := by
  intro l
  induction l with
  | nil => intro _; rfl
  | cons c l' ih =>
    intro hw
    have hc : c.isWhitespace = true := hw c (by simp)
    simp only [wordsAux, hc, if_true, if_pos rfl]
    exact ih (fun d hd => hw d (by simp [hd]))

theorem words_joinSp : ∀ (ts : List (List Char)),
    (∀ t ∈ ts, t ≠ [] ∧ ∀ c ∈ t, c.isWhitespace = false) →
    words (joinSp ts) = ts := by
  intro ts
  induction ts with
  | nil => intro _; rfl
  | cons t ts' ih =>
    intro h
    obtain ⟨ht, hw⟩ := h t (by simp)
    cases ts' with
    | nil =>
      show wordsAux (joinSp [t]) [] = [t]
      have hj : joinSp [t] = t ++ [] := by simp [joinSp]
      rw [hj, wordsAux_push t [] [] hw]
      simp only [wordsAux, List.append_nil]
      rw [if_neg (by simp [ht])]
      simp
    | cons t2 ts'' =>
      show wordsAux (joinSp (t :: t2 :: ts'')) [] = t :: t2 :: ts''
      have hj : joinSp (t :: t2 :: ts'') = t ++ ' ' :: joinSp (t2 :: ts'') := rfl
      rw [hj, wordsAux_push t (' ' :: joinSp (t2 :: ts'')) [] hw]
      simp only [wordsAux, List.append_nil]
      rw [if_pos (by decide), if_neg (by simp [ht])]
      rw [List.reverse_reverse]
      congr 1
      exact ih (fun u hu => h u (by simp [hu]))

theorem takeWhile_all {p : Char → Bool} : ∀ (l : List Char),
    (∀ c ∈ l, p c = true) → l.takeWhile p = l := by
  intro l
  induction l with
  | nil => intro _; rfl
  | cons c l' ih =>
    intro h
    simp only [List.takeWhile_cons, h c (by simp), if_true, if_pos rfl]
    rw [ih (fun d hd => h d (by simp [hd]))]

theorem takeWhile_append_stop {p : Char → Bool} {x : Char} : ∀ (l t : List Char),
    (∀ c ∈ l, p c = true) → p x = false →
    (l ++ x :: t).takeWhile p = l := by
  intro l
  induction l with
  | nil =>
    intro t _ hx
    show (x :: t).takeWhile p = []
    rw [List.takeWhile_cons_of_neg (by simp [hx])]
  | cons c l' ih =>
    intro t h hx
    show ((c :: (l' ++ x :: t)).takeWhile p) = c :: l'
    rw [List.takeWhile_cons_of_pos (h c (by simp)),
      ih t (fun d hd => h d (by simp [hd])) hx]

theorem stripComment_no_hash {l : List Char} (h : ∀ c ∈ l, (c != '#') = true) :
    stripComment l = l :=
  takeWhile_all l h

theorem stripComment_inline {l c : List Char} (h : ∀ a ∈ l, (a != '#') = true) :
    stripComment (l ++ '#' :: c) = l :=
  takeWhile_append_stop l c h (by decide)

/-- A token is good when it is nonempty and contains neither whitespace
nor the comment character. -/
def goodTok (t : List Char) : Prop :=
  t ≠ [] ∧ ∀ c ∈ t, c.isWhitespace = false ∧ (c != '#') = true

theorem goodTok_natRepr (n : Nat) : goodTok (natRepr n) := by
  refine ⟨natRepr_ne_nil n, fun c hc => ?_⟩
  obtain ⟨d, hd, rfl⟩ := mem_natRepr hc
  exact ⟨digitChar_not_ws hd, digitChar_ne_hash hd⟩

theorem mem_joinSp {c : Char} : ∀ {ts : List (List Char)}, c ∈ joinSp ts →
    c = ' ' ∨ ∃ t ∈ ts, c ∈ t := by
  intro ts
  induction ts with
  | nil => intro h; cases h
  | cons t ts' ih =>
    intro h
    cases ts' with
    | nil =>
      right
      exact ⟨t, by simp, h⟩
    | cons t2 ts'' =>
      have hj : joinSp (t :: t2 :: ts'') = t ++ ' ' :: joinSp (t2 :: ts'') := rfl
      rw [hj, List.mem_append] at h
      rcases h with h | h
      · exact Or.inr ⟨t, by simp, h⟩
      · rcases List.mem_cons.mp h with h | h
        · exact Or.inl h
        · rcases ih h with h' | ⟨u, hu, hcu⟩
          · exact Or.inl h'
          · exact Or.inr ⟨u, by simp [hu], hcu⟩

theorem lineTokens_joinSp {ts : List (List Char)} (h : ∀ t ∈ ts, goodTok t) :
    lineTokens (joinSp ts) = ts := by
  unfold lineTokens
  rw [stripComment_no_hash, words_joinSp ts (fun t ht => ⟨(h t ht).1, fun c hc => ((h t ht).2 c hc).1⟩)]
  intro c hc
  rcases mem_joinSp hc with rfl | ⟨t, ht, hct⟩
  · decide
  · exact ((h t ht).2 c hct).2

theorem lineTokens_single {t : List Char} (h : goodTok t) : lineTokens t = [t] := by
  have h2 : lineTokens (joinSp [t]) = [t] := lineTokens_joinSp (by simpa using h)
  simpa [joinSp] using h2

/-! Helper lemmas about flattening and reshaping. -/

theorem flatten_length_const {α : Type} : ∀ (rows : List (List α)) (w : Nat),
    (∀ r ∈ rows, r.length = w) → rows.flatten.length = rows.length * w := by
  intro rows
  induction rows with
  | nil => intro w _; simp
  | cons r rows' ih =>
    intro w h
    simp only [List.flatten_cons, List.length_append, List.length_cons]
    rw [h r (by simp), ih w (fun u hu => h u (by simp [hu]))]
    ring

theorem chunks2_flatten {α : Type} : ∀ (rows : List (List α)) (w : Nat),
    (∀ r ∈ rows, r.length = w) → chunks2 rows.length w rows.flatten = rows := by
  intro rows
  induction rows with
  | nil => intro w _; rfl
  | cons r rows' ih =>
    intro w h
    have hr : r.length = w := h r (by simp)
    simp only [List.length_cons, List.flatten_cons, chunks2]
    rw [List.take_left' hr, List.drop_left' hr,
      ih w (fun u hu => h u (by simp [hu]))]

theorem chunks3_flatten {α : Type} : ∀ (ps : List (List α)),
    (∀ p ∈ ps, p.length = 3) → chunks3 ps.flatten = ps := by
  intro ps
  induction ps with
  | nil => intro _; rfl
  | cons p ps' ih =>
    intro h
    have hp : p.length = 3 := h p (by simp)
    match p, hp with
    | [a, b, c], _ =>
      show chunks3 (a :: b :: c :: ps'.flatten) = [a, b, c] :: ps'
      rw [show chunks3 (a :: b :: c :: ps'.flatten) = [a, b, c] :: chunks3 ps'.flatten from rfl]
      rw [ih (fun u hu => h u (by simp [hu]))]

theorem reshape2_flatten {rows : List (List Nat)} {w : Nat}
    (h : ∀ r ∈ rows, r.length = w) :
    reshape2 rows.length w rows.flatten = some rows := by
  unfold reshape2
  rw [if_pos (flatten_length_const rows w h), chunks2_flatten rows w h]

theorem map_flatten_flatten {α : Type} : ∀ (rows : List (List (List α))),
    (rows.map List.flatten).flatten = rows.flatten.flatten := by
  intro rows
  induction rows with
  | nil => rfl
  | cons r rows' ih =>
    simp only [List.map_cons, List.flatten_cons, List.flatten_append, ih]

theorem reshape3_flatten {rows : List (List (List Nat))} {w : Nat}
    (hw : ∀ r ∈ rows, r.length = w)
    (hp : ∀ r ∈ rows, ∀ px ∈ r, px.length = 3) :
    reshape3 rows.length w ((rows.map List.flatten).flatten) = some rows := by
  have hfl : ∀ u ∈ rows.map List.flatten, u.length = w * 3 := by
    intro u hu
    rw [List.mem_map] at hu
    obtain ⟨r, hr, rfl⟩ := hu
    rw [flatten_length_const r 3 (hp r hr), hw r hr]
  have hlen : ((rows.map List.flatten).flatten).length = rows.length * (w * 3) := by
    have := flatten_length_const (rows.map List.flatten) (w * 3) hfl
    simpa using this
  unfold reshape3
  rw [if_pos (by rw [hlen]; ring)]
  rw [map_flatten_flatten rows, chunks3_flatten rows.flatten (fun px hpx => ?_),
    chunks2_flatten rows w hw]
  rw [List.mem_flatten] at hpx
  obtain ⟨r, hr, hpxr⟩ := hpx
  exact hp r hr px hpxr

/-! Structure of `set_max_color_value` results. -/

theorem set_max_eq (r : Netpbm) (k : Nat) (q : Netpbm)
    (h : r.set_max_color_value k = some q) :
    q.P = r.P ∧ q.k = r.k ∧ q.M = r.M.map (gradientMap r.k k) := by
  unfold Netpbm.set_max_color_value at h
  by_cases h1 : k = 1
  · rw [if_pos h1] at h
    obtain rfl := Option.some.inj h
    refine ⟨rfl, rfl, ?_⟩
    show r.M.map (threshSample r.k) = r.M.map (gradientMap r.k k)
    congr 1
    funext x
    simp [gradientMap, h1]
  · rw [if_neg h1] at h
    by_cases h0 : k = 0
    · rw [if_pos h0] at h
      exact absurd h (by simp)
    · rw [if_neg h0] at h
      obtain rfl := Option.some.inj h
      refine ⟨rfl, rfl, ?_⟩
      show r.M.map (quantSample (r.k / k)) = r.M.map (gradientMap r.k k)
      congr 1
      funext x
      simp [gradientMap, h1]

theorem gradientMap_mono {kOld levels a b : Nat} (hab : a ≤ b) :
    gradientMap kOld levels a ≤ gradientMap kOld levels b := by
  by_cases hl : levels = 1
  · simp only [gradientMap, if_pos hl, threshSample]
    split_ifs <;> omega
  · simp only [gradientMap, if_neg hl, quantSample]
    exact Nat.div_le_div_right hab

/-- C7: for every raster and level count for which `change_gradient`
succeeds, the quantizer applied by it is the per-sample map
`gradientMap r.k levels`, and that map is monotone: samples `a < b` give
`quantize(a) ≤ quantize(b)`. -/
theorem quantization_monotone (r : Netpbm) (levels : Nat) (q : Netpbm)
    (hq : change_gradient r levels = some q) :
    q.M = r.M.map (gradientMap r.k levels) ∧
    ∀ a b : Nat, a < b → gradientMap r.k levels a ≤ gradientMap r.k levels b := by
  have h := set_max_eq r levels q hq
  exact ⟨h.2.2, fun a b hab => gradientMap_mono (Nat.le_of_lt hab)⟩

/-- C7 witness: the monotonicity theorem instantiated on a concrete
graymap with max value 255, 11 levels, and samples 3 < 9. -/
theorem quantization_monotone_witness :
    (⟨2, 255, Mat.gray [[0]]⟩ : Netpbm).M =
      (⟨2, 255, Mat.gray [[5]]⟩ : Netpbm).M.map (gradientMap 255 11) ∧
    gradientMap 255 11 3 ≤ gradientMap 255 11 9 := by
  have h := quantization_monotone ⟨2, 255, Mat.gray [[5]]⟩ 11 ⟨2, 255, Mat.gray [[0]]⟩
    (by decide)
  exact ⟨h.1, h.2 3 9 (by decide)⟩

/-- C8: `set_max_color_value` never assigns `self.k`, so whenever it
succeeds the stored maximum color value is unchanged. -/
theorem set_max_preserves_k (r : Netpbm) (k' : Nat) (q : Netpbm)
    (h : r.set_max_color_value k' = some q) : q.k = r.k :=
  (set_max_eq r k' q h).2.1

/-- C8 witness: after reducing a graymap with stored max value 255 to 11
levels, the stored max value is still 255 (not 11). -/
theorem set_max_preserves_k_witness :
    ∃ q : Netpbm,
      (⟨2, 255, Mat.gray [[7]]⟩ : Netpbm).set_max_color_value 11 = some q ∧
      q.k = 255 :=
  ⟨⟨2, 255, Mat.gray [[0]]⟩, by decide,
    set_max_preserves_k ⟨2, 255, Mat.gray [[7]]⟩ 11 ⟨2, 255, Mat.gray [[0]]⟩
      (by decide)⟩

/-- C2: evaluation at the failing input.  Because `set_max_color_value`
never updates `self.k`, a second application thresholds the already
reduced samples against the stale old maximum: for a graymap with
`k = 255` and the single sample 255, one application gives `[[1]]` but a
second application gives `[[0]]`, so the operation is not idempotent. -/
theorem set_max_not_idempotent_eval :
    (⟨2, 255, Mat.gray [[255]]⟩ : Netpbm).set_max_color_value 1 =
      some ⟨2, 255, Mat.gray [[1]]⟩ ∧
    ((⟨2, 255, Mat.gray [[255]]⟩ : Netpbm).set_max_color_value 1).bind
      (fun r => r.set_max_color_value 1) = some ⟨2, 255, Mat.gray [[0]]⟩ := by
  decide

/-- C6: evaluation at the failing input.  `set_max_color_value(r, 1)`
thresholds every sample at half the old maximum (samples 2, 1, 0 with
max 2 give 1, 0, 0), but the magic number stays 2: the line
`self.P == 1` in the source compares instead of assigning, so the result
is not retagged as a Bitmap. -/
theorem set_max_one_keeps_P_eval :
    (⟨2, 2, Mat.gray [[2, 1, 0]]⟩ : Netpbm).set_max_color_value 1 =
      some ⟨2, 2, Mat.gray [[1, 0, 0]]⟩ := by
  decide

/-! Palette validity (claim C3). -/

theorem gradientMap_palette_bound {m : Nat} (hm : m < 11 ∨ m % 11 < m / 11) :
    ∀ x ≤ m, gradientMap m 11 x < 12 := by
  intro x hx
  have h11 : (11 : Nat) ≠ 1 := by decide
  simp only [gradientMap, if_neg h11, quantSample]
  rcases hm with hm | hm
  · rw [Nat.div_eq_of_lt hm]
    simp
  · have hq : 0 < m / 11 := by omega
    have h1 : x / (m / 11) ≤ m / (m / 11) := Nat.div_le_div_right hx
    have hdm := Nat.mod_add_div m 11
    have h3 : m / (m / 11) < 12 := (Nat.div_lt_iff_lt_mul hq).mpr (by omega)
    omega

theorem mapOpt_chars_row : ∀ (l : List Nat), (∀ i ∈ l, i < chars.length) →
    ∃ cl, mapOpt (fun i => chars[i]?) l = some cl ∧ ∀ c ∈ cl, c ∈ chars := by
  intro l
  induction l with
  | nil => exact fun _ => ⟨[], rfl, by simp⟩
  | cons i l' ih =>
    intro h
    have hi : i < chars.length := h i (by simp)
    obtain ⟨cl, hcl, hmem⟩ := ih (fun j hj => h j (by simp [hj]))
    refine ⟨chars[i] :: cl, ?_, ?_⟩
    · simp only [mapOpt, List.getElem?_eq_getElem hi, hcl]
    · intro c hc
      rcases List.mem_cons.mp hc with rfl | hc
      · exact List.getElem_mem hi
      · exact hmem c hc

theorem mapOpt_chars_grid : ∀ (rows : List (List Nat)),
    (∀ row ∈ rows, ∀ i ∈ row, i < chars.length) →
    ∃ g, mapOpt (fun row => mapOpt (fun i => chars[i]?) row) rows = some g ∧
      ∀ row ∈ g, ∀ c ∈ row, c ∈ chars := by
  intro rows
  induction rows with
  | nil => exact fun _ => ⟨[], rfl, by simp⟩
  | cons row rows' ih =>
    intro h
    obtain ⟨cl, hcl, hclmem⟩ := mapOpt_chars_row row (h row (by simp))
    obtain ⟨g, hg, hgmem⟩ := ih (fun u hu => h u (by simp [hu]))
    refine ⟨cl :: g, ?_, ?_⟩
    · simp only [mapOpt, hcl, hg]
    · intro u hu
      rcases List.mem_cons.mp hu with rfl | hu
      · exact hclmem
      · exact hgmem u hu

/-- C3 (amended): for a grayscale raster whose samples lie in `[0, k]`
and whose max value `k` satisfies `k < 11` or `k % 11 < k / 11` (as the
usual `k = 255` does), every value produced by the quantizer with
`levels = len(chars) - 1` is a valid index into the 12-character palette,
and `netpbm_to_ascii` succeeds with every produced character a member of
the palette.  Without the condition on `k` the indices can reach past the
palette (see the counterexample). -/
theorem palette_indices_valid (r : Netpbm) (rows : List (List Nat))
    (hM : r.M = Mat.gray rows)
    (hs : ∀ row ∈ rows, ∀ x ∈ row, x ≤ r.k)
    (hk : r.k < 11 ∨ r.k % 11 < r.k / 11) :
    (∀ x ≤ r.k, gradientMap r.k (chars.length - 1) x < chars.length) ∧
    ∃ g, netpbm_to_ascii r = some g ∧ ∀ row ∈ g, ∀ c ∈ row, c ∈ chars := by
  have hlen : chars.length = 12 := by decide
  have hbound := gradientMap_palette_bound hk
  constructor
  · intro x hx
    rw [hlen]
    exact hbound x hx
  · have hcg : change_gradient r (chars.length - 1) =
        some ⟨r.P, r.k, r.M.map (gradientMap r.k 11)⟩ := by
      show r.set_max_color_value (chars.length - 1) = _
      rw [hlen]
      unfold Netpbm.set_max_color_value
      rw [if_neg (by decide), if_neg (by decide)]
      rfl
    unfold netpbm_to_ascii
    rw [hcg, hM]
    show ∃ g, mapOpt (fun row => mapOpt (fun i => chars[i]?) row)
        (rows.map (fun row => row.map (gradientMap r.k 11))) = some g ∧
        ∀ row ∈ g, ∀ c ∈ row, c ∈ chars
    apply mapOpt_chars_grid
    intro row hrow i hi
    rw [List.mem_map] at hrow
    obtain ⟨row₀, hrow₀, rfl⟩ := hrow
    rw [List.mem_map] at hi
    obtain ⟨x, hx, rfl⟩ := hi
    rw [hlen]
    exact hbound x (hs row₀ hrow₀ x hx)

/-- C3 counterexample: for the grayscale raster with max value 12 and the
in-range sample 12, the quantizer with `levels = len(chars) - 1` produces
the value 12, which is not a valid index into the 12-character palette,
and `netpbm_to_ascii` raises IndexError (`none`) instead of producing a
palette character. -/
theorem palette_indices_counterexample :
    netpbm_to_ascii ⟨2, 12, Mat.gray [[12]]⟩ = none ∧
    gradientMap 12 (chars.length - 1) 12 = 12 ∧ ¬ (12 < chars.length) := by
  decide

/-- C3 witness: the amended theorem instantiated on a concrete
grayscale raster with max value 255. -/
theorem palette_indices_valid_witness :
    ∃ g, netpbm_to_ascii ⟨2, 255, Mat.gray [[0, 128], [255, 7]]⟩ = some g ∧
      ∀ row ∈ g, ∀ c ∈ row, c ∈ chars :=
  (palette_indices_valid ⟨2, 255, Mat.gray [[0, 128], [255, 7]]⟩
    [[0, 128], [255, 7]] rfl (by decide) (by decide)).2

/-! Tokenization of the lines written by `to_netpbm` (claim C1). -/

theorem goodTok_P_line (P : Nat) : goodTok ('P' :: natRepr P) := by
  refine ⟨by simp, fun c hc => ?_⟩
  rcases List.mem_cons.mp hc with rfl | hc
  · exact ⟨by decide, by decide⟩
  · exact (goodTok_natRepr P).2 c hc

theorem lineTokens_P (P : Nat) :
    lineTokens ('P' :: natRepr P) = ['P' :: natRepr P] :=
  lineTokens_single (goodTok_P_line P)

theorem lineTokens_wh (w h : Nat) :
    lineTokens (natRepr w ++ ' ' :: natRepr h) = [natRepr w, natRepr h] := by
  have hj : natRepr w ++ ' ' :: natRepr h = joinSp [natRepr w, natRepr h] := rfl
  rw [hj]
  apply lineTokens_joinSp
  intro t ht
  simp only [List.mem_cons, List.mem_singleton, List.not_mem_nil, or_false] at ht
  rcases ht with rfl | rfl <;> exact goodTok_natRepr _

theorem lineTokens_k (k : Nat) : lineTokens (natRepr k) = [natRepr k] :=
  lineTokens_single (goodTok_natRepr k)

theorem rowLines_tokens (rows2 : List (List Nat)) (k : Nat)
    (hclip : ∀ row ∈ rows2, ∀ x ∈ row, x ≤ k) :
    ((rows2.map (fun row => joinSp (row.map (fun x => natRepr (min x k))))).map
      lineTokens).flatten = (rows2.flatten).map natRepr := by
  have h1 : rows2.map (fun row => joinSp (row.map (fun x => natRepr (min x k))))
      = rows2.map (fun row => joinSp (row.map natRepr)) := by
    apply List.map_congr_left
    intro row hrow
    congr 1
    apply List.map_congr_left
    intro x hx
    rw [Nat.min_eq_left (hclip row hrow x hx)]
  rw [h1, List.map_map]
  have h2 : (List.map (lineTokens ∘ fun row => joinSp (row.map natRepr)) rows2)
      = rows2.map (fun row => row.map natRepr) := by
    apply List.map_congr_left
    intro row _
    show lineTokens (joinSp (row.map natRepr)) = row.map natRepr
    apply lineTokens_joinSp
    intro t ht
    rw [List.mem_map] at ht
    obtain ⟨x, _, rfl⟩ := ht
    exact goodTok_natRepr x
  rw [h2, ← List.map_flatten]

/-! Stepping the ASCII parser over a well-formed token stream. -/

theorem parseAsciiVals_P1 (w h : Nat) (samples : List Nat) :
    parseAsciiVals (('P' :: natRepr 1) :: natRepr w :: natRepr h ::
        samples.map natRepr) =
      match reshape2 h w samples with
      | none => none
      | some M => some (⟨1, 1, Mat.gray M⟩ : Netpbm) := by
  have h1 : natRepr 1 = ['1'] := by rw [natRepr_eq_of_lt (by omega)]; rfl
  have hm : mapOpt parseNatTok (natRepr w :: natRepr h :: samples.map natRepr)
      = some (w :: h :: samples) := by
    simp only [mapOpt, parseNatTok_natRepr, mapOpt_parseNatTok_natRepr]
  rw [h1]
  simp only [parseAsciiVals, hm, List.getElem?_cons_succ, List.getElem?_cons_zero,
    show parseDigit '1' = some 1 from rfl, if_true, eq_self_iff_true]

theorem parseAsciiVals_P2 (w h k : Nat) (samples : List Nat) :
    parseAsciiVals (('P' :: natRepr 2) :: natRepr w :: natRepr h :: natRepr k ::
        samples.map natRepr) =
      match reshape2 h w samples with
      | none => none
      | some M => some (⟨2, k, Mat.gray M⟩ : Netpbm) := by
  have h1 : natRepr 2 = ['2'] := by rw [natRepr_eq_of_lt (by omega)]; rfl
  have hm : mapOpt parseNatTok (natRepr w :: natRepr h :: natRepr k ::
      samples.map natRepr) = some (w :: h :: k :: samples) := by
    simp only [mapOpt, parseNatTok_natRepr, mapOpt_parseNatTok_natRepr]
  rw [h1]
  simp only [parseAsciiVals, hm, List.getElem?_cons_succ, List.getElem?_cons_zero,
    show parseDigit '2' = some 2 from rfl]
  norm_num

theorem parseAsciiVals_P3 (w h k : Nat) (samples : List Nat) :
    parseAsciiVals (('P' :: natRepr 3) :: natRepr w :: natRepr h :: natRepr k ::
        samples.map natRepr) =
      match reshape3 h w samples with
      | none => none
      | some M => some (⟨3, k, Mat.color M⟩ : Netpbm) := by
  have h1 : natRepr 3 = ['3'] := by rw [natRepr_eq_of_lt (by omega)]; rfl
  have hm : mapOpt parseNatTok (natRepr w :: natRepr h :: natRepr k ::
      samples.map natRepr) = some (w :: h :: k :: samples) := by
    simp only [mapOpt, parseNatTok_natRepr, mapOpt_parseNatTok_natRepr]
  rw [h1]
  simp only [parseAsciiVals, hm, List.getElem?_cons_succ, List.getElem?_cons_zero,
    show parseDigit '3' = some 3 from rfl]
  norm_num

/-- C1 (amended): round-trip holds for the three ASCII formats, the only
encodings the source can produce (`to_netpbm` always writes the plain
magic numbers): for every valid raster, parsing the lines written by
`to_netpbm` with `_parse_ascii_netpbm` returns the raster unchanged.
The binary half of the original claim fails (see the counterexample). -/
theorem ascii_roundtrip (r : Netpbm) (hv : valid r = true) :
    parse_ascii_netpbm r.to_netpbm = some r := by
  obtain ⟨P, k, M⟩ := r
  cases M with
  | gray rows =>
    simp only [valid, Mat.w, Bool.and_eq_true, Bool.or_eq_true, decide_eq_true_eq,
      List.all_eq_true] at hv
    obtain ⟨⟨⟨hP, hh⟩, hw⟩, hrect⟩ := hv
    have hclip : ∀ row ∈ rows, ∀ x ∈ row, x ≤ k :=
      fun row hrow x hx => (hrect row hrow).2 x hx
    have hlens : ∀ row ∈ rows, row.length = (rows.headD []).length :=
      fun row hrow => (hrect row hrow).1
    have hfile : (⟨P, k, Mat.gray rows⟩ : Netpbm).to_netpbm =
        ('P' :: natRepr P) ::
        (natRepr (rows.headD []).length ++ ' ' :: natRepr rows.length) ::
        ((if P = 1 then [] else [natRepr k]) ++
          rows.map (fun row => joinSp (row.map (fun x => natRepr (min x k))))) := by
      simp only [Netpbm.to_netpbm, rowsOf, Mat.w, Mat.h]
    unfold parse_ascii_netpbm
    rw [hfile]
    rcases hP with ⟨rfl, rfl⟩ | rfl
    · have hvals : asciiVals (('P' :: natRepr 1) ::
          (natRepr (rows.headD []).length ++ ' ' :: natRepr rows.length) ::
          ((if (1 : Nat) = 1 then [] else [natRepr 1]) ++
            rows.map (fun row => joinSp (row.map (fun x => natRepr (min x 1)))))) =
          ('P' :: natRepr 1) :: natRepr (rows.headD []).length ::
            natRepr rows.length :: (rows.flatten).map natRepr := by
        simp only [asciiVals, if_true, eq_self_iff_true, List.nil_append,
          List.map_cons, List.flatten_cons]
        rw [lineTokens_P, lineTokens_wh, rowLines_tokens rows 1 hclip]
        simp [List.singleton_append, List.cons_append]
      rw [hvals, parseAsciiVals_P1, reshape2_flatten hlens]
    · have hvals : asciiVals (('P' :: natRepr 2) ::
          (natRepr (rows.headD []).length ++ ' ' :: natRepr rows.length) ::
          ((if (2 : Nat) = 1 then [] else [natRepr k]) ++
            rows.map (fun row => joinSp (row.map (fun x => natRepr (min x k)))))) =
          ('P' :: natRepr 2) :: natRepr (rows.headD []).length ::
            natRepr rows.length :: natRepr k :: (rows.flatten).map natRepr := by
        simp only [asciiVals, if_neg (by omega : ¬ (2 : Nat) = 1), List.map_cons,
          List.flatten_cons, List.map_append, List.flatten_append]
        rw [lineTokens_P, lineTokens_wh, lineTokens_k, rowLines_tokens rows k hclip]
        simp [List.singleton_append, List.cons_append]
      rw [hvals, parseAsciiVals_P2, reshape2_flatten hlens]
  | color rows =>
    simp only [valid, Mat.w, Bool.and_eq_true, decide_eq_true_eq,
      List.all_eq_true] at hv
    obtain ⟨⟨⟨rfl, hh⟩, hw⟩, hrect⟩ := hv
    have hlens : ∀ row ∈ rows, row.length = (rows.headD []).length :=
      fun row hrow => (hrect row hrow).1
    have hpx : ∀ row ∈ rows, ∀ px ∈ row, px.length = 3 :=
      fun row hrow px hpx0 => ((hrect row hrow).2 px hpx0).1
    have hclip : ∀ row2 ∈ rows.map List.flatten, ∀ x ∈ row2, x ≤ k := by
      intro row2 hrow2 x hx
      rw [List.mem_map] at hrow2
      obtain ⟨row, hrow, rfl⟩ := hrow2
      rw [List.mem_flatten] at hx
      obtain ⟨px, hpx0, hxpx⟩ := hx
      exact ((hrect row hrow).2 px hpx0).2 x hxpx
    have hfile : (⟨3, k, Mat.color rows⟩ : Netpbm).to_netpbm =
        ('P' :: natRepr 3) ::
        (natRepr (rows.headD []).length ++ ' ' :: natRepr rows.length) ::
        ([natRepr k] ++
          (rows.map List.flatten).map
            (fun row => joinSp (row.map (fun x => natRepr (min x k))))) := by
      simp only [Netpbm.to_netpbm, rowsOf, Mat.w, Mat.h]
      norm_num
    unfold parse_ascii_netpbm
    rw [hfile]
    have hvals : asciiVals (('P' :: natRepr 3) ::
        (natRepr (rows.headD []).length ++ ' ' :: natRepr rows.length) ::
        ([natRepr k] ++
          (rows.map List.flatten).map
            (fun row => joinSp (row.map (fun x => natRepr (min x k)))))) =
        ('P' :: natRepr 3) :: natRepr (rows.headD []).length ::
          natRepr rows.length :: natRepr k ::
          ((rows.map List.flatten).flatten).map natRepr := by
      simp only [asciiVals, List.map_cons, List.flatten_cons, List.map_append,
        List.flatten_append]
      rw [lineTokens_P, lineTokens_wh, lineTokens_k,
        rowLines_tokens (rows.map List.flatten) k hclip]
      simp [List.singleton_append, List.cons_append]
    rw [hvals, parseAsciiVals_P3, reshape3_flatten hlens hpx]

/-- C1 witness: the ASCII round-trip theorem instantiated on a concrete
valid 1×2 color raster. -/
theorem ascii_roundtrip_witness :
    valid ⟨3, 255, Mat.color [[[1, 2, 3], [4, 5, 6]]]⟩ = true ∧
    parse_ascii_netpbm
        ((⟨3, 255, Mat.color [[[1, 2, 3], [4, 5, 6]]]⟩ : Netpbm).to_netpbm) =
      some ⟨3, 255, Mat.color [[[1, 2, 3], [4, 5, 6]]]⟩ :=
  ⟨by decide, ascii_roundtrip ⟨3, 255, Mat.color [[[1, 2, 3], [4, 5, 6]]]⟩ (by decide)⟩

/-- C1 counterexample: the round-trip fails for the binary Bitmap
encoding.  The valid 1×1 bitmap raster `[[1]]`, encoded per the spec's
binary layout (`P4`, width and height lines, no max-value line, raw
sample bytes), is decoded by `read_netpbm` to an error: the binary parser
halves the magic digit (`int(4 / 2) = 2`, not the Bitmap ASCII magic 1),
therefore expects a max-value line and consumes the sample byte as that
line, which fails to parse as an integer. -/
theorem binary_roundtrip_counterexample :
    valid ⟨1, 1, Mat.gray [[1]]⟩ = true ∧
    read_netpbm (encode_binary ⟨1, 1, Mat.gray [[1]]⟩) = none ∧
    read_netpbm (encode_binary ⟨1, 1, Mat.gray [[1]]⟩) ≠
      some ⟨1, 1, Mat.gray [[1]]⟩ := by
  decide

/-! Tokenization of the claim-statement file builders. -/

theorem lineTokens_samples (samples : List Nat) :
    lineTokens (joinSp (samples.map natRepr)) = samples.map natRepr := by
  apply lineTokens_joinSp
  intro t ht
  rw [List.mem_map] at ht
  obtain ⟨x, _, rfl⟩ := ht
  exact goodTok_natRepr x

theorem asciiVals_fileP2 (w h k : Nat) (samples : List Nat) :
    asciiVals (asciiFileP2 w h k samples) =
      ('P' :: natRepr 2) :: natRepr w :: natRepr h :: natRepr k ::
        samples.map natRepr := by
  have h2 : ('P' :: natRepr 2) = (['P', '2'] : List Char) := by
    rw [natRepr_eq_of_lt (by omega)]
    rfl
  simp only [asciiFileP2, asciiVals, List.map_cons, List.flatten_cons, List.map_nil,
    List.flatten_nil, List.append_nil]
  rw [show (['P', '2'] : List Char) = 'P' :: natRepr 2 from h2.symm, lineTokens_P,
    lineTokens_wh, lineTokens_k, lineTokens_samples]
  simp [List.singleton_append, List.cons_append]

theorem asciiVals_fileP3 (w h k : Nat) (samples : List Nat) :
    asciiVals (asciiFileP3 w h k samples) =
      ('P' :: natRepr 3) :: natRepr w :: natRepr h :: natRepr k ::
        samples.map natRepr := by
  have h3 : ('P' :: natRepr 3) = (['P', '3'] : List Char) := by
    rw [natRepr_eq_of_lt (by omega)]
    rfl
  simp only [asciiFileP3, asciiVals, List.map_cons, List.flatten_cons, List.map_nil,
    List.flatten_nil, List.append_nil]
  rw [show (['P', '3'] : List Char) = 'P' :: natRepr 3 from h3.symm, lineTokens_P,
    lineTokens_wh, lineTokens_k, lineTokens_samples]
  simp [List.singleton_append, List.cons_append]

/-! Stepping the binary parser over a well-formed `P5` header. -/

theorem natRepr_no_lf (n : Nat) : (10 : Nat) ∉ charsToBytes (natRepr n) := by
  intro hmem
  rw [charsToBytes, List.mem_map] at hmem
  obtain ⟨c, hc, hc10⟩ := hmem
  obtain ⟨d, hd, rfl⟩ := mem_natRepr hc
  exact digitChar_toNat_ne_lf hd hc10

theorem natRepr_ascii (n : Nat) : ∀ c ∈ natRepr n, c.toNat < 128 := by
  intro c hc
  obtain ⟨d, hd, rfl⟩ := mem_natRepr hc
  exact digitChar_toNat_lt hd

theorem readLine_append (l rest : List Nat) (hl : (10 : Nat) ∉ l) :
    readLine (l ++ 10 :: rest) = (l ++ [10], rest) := by
  induction l with
  | nil => simp [readLine]
  | cons b bs ih =>
    have hb : b ≠ 10 := fun hb0 => hl (by simp [hb0])
    have ih' := ih (fun hm => hl (by simp [hm]))
    simp only [List.cons_append, readLine, if_neg hb]
    rw [show bs.append (10 :: rest) = bs ++ 10 :: rest from rfl, ih']

theorem asciiChars_bytes (cs : List Char) (h : ∀ c ∈ cs, c.toNat < 128) :
    asciiChars (charsToBytes cs) = some cs := by
  have hall : (charsToBytes cs).all (fun b => decide (b < 128)) = true := by
    rw [List.all_eq_true]
    intro b hb
    rw [charsToBytes, List.mem_map] at hb
    obtain ⟨c, hc, rfl⟩ := hb
    exact decide_eq_true (h c hc)
  unfold asciiChars
  rw [if_pos hall]
  congr 1
  rw [charsToBytes, List.map_map]
  calc List.map (Char.ofNat ∘ Char.toNat) cs
      = List.map id cs := List.map_congr_left (fun c _ => Char.ofNat_toNat c)
    _ = cs := List.map_id cs

theorem asciiChars_line (n : Nat) :
    asciiChars (charsToBytes (natRepr n) ++ [10]) = some (natRepr n ++ ['\n']) := by
  have hsh : charsToBytes (natRepr n) ++ [10] = charsToBytes (natRepr n ++ ['\n']) := by
    simp [charsToBytes]
  rw [hsh]
  apply asciiChars_bytes
  intro c hc
  rw [List.mem_append] at hc
  rcases hc with hc | hc
  · exact natRepr_ascii n c hc
  · simp only [List.mem_singleton] at hc
    subst hc
    decide

theorem parse_binary_P5 (w h k : Nat) (data : List Nat) :
    parse_binary_netpbm (binFileP5 w h k data) =
      match reshape2 h w data with
      | none => none
      | some M => some (⟨2, k, Mat.gray M⟩ : Netpbm) := by
  have hshape : binFileP5 w h k data =
      ['P'.toNat, '5'.toNat] ++ 10 :: (charsToBytes (natRepr w) ++ 10 ::
        (charsToBytes (natRepr h) ++ 10 :: (charsToBytes (natRepr k) ++ 10 :: data))) := by
    simp [binFileP5, binHeader, List.append_assoc]
  have h1 : readLine (binFileP5 w h k data) =
      (['P'.toNat, '5'.toNat] ++ [10], charsToBytes (natRepr w) ++ 10 ::
        (charsToBytes (natRepr h) ++ 10 :: (charsToBytes (natRepr k) ++ 10 :: data))) := by
    rw [hshape]
    exact readLine_append _ _ (by decide)
  have h2 : readLine (charsToBytes (natRepr w) ++ 10 ::
      (charsToBytes (natRepr h) ++ 10 :: (charsToBytes (natRepr k) ++ 10 :: data))) =
      (charsToBytes (natRepr w) ++ [10], charsToBytes (natRepr h) ++ 10 ::
        (charsToBytes (natRepr k) ++ 10 :: data)) :=
    readLine_append _ _ (natRepr_no_lf w)
  have h3 : readLine (charsToBytes (natRepr h) ++ 10 ::
      (charsToBytes (natRepr k) ++ 10 :: data)) =
      (charsToBytes (natRepr h) ++ [10], charsToBytes (natRepr k) ++ 10 :: data) :=
    readLine_append _ _ (natRepr_no_lf h)
  have h4 : readLine (charsToBytes (natRepr k) ++ 10 :: data) =
      (charsToBytes (natRepr k) ++ [10], data) :=
    readLine_append _ _ (natRepr_no_lf k)
  have ha1 : asciiChars (['P'.toNat, '5'.toNat] ++ [10]) = some ['P', '5', '\n'] := by
    decide
  simp only [parse_binary_netpbm, h1, h2, h3, h4, ha1, asciiChars_line,
    List.dropLast_concat, parseNatTok_natRepr, List.getElem?_cons_succ,
    List.getElem?_cons_zero, show parseDigit '5' = some 5 from rfl,
    show (5 : Nat) / 2 = 2 from rfl]
  norm_num

/-- C9: decode demands an exact sample count.  For each of the
constructed well-formed files, the parse fails precisely when the number
of sample tokens (ASCII `P2`/`P3`) or data bytes (binary `P5`) differs
from `w*h` (respectively `w*h*3`), because the flat buffer is reshaped to
exactly `(h, w)` or `(h, w, 3)`: surplus data is not silently ignored. -/
theorem decode_exact_count :
    (∀ (w h k : Nat) (samples : List Nat), samples.length ≠ h * w →
      parse_ascii_netpbm (asciiFileP2 w h k samples) = none) ∧
    (∀ (w h k : Nat) (samples : List Nat), samples.length ≠ h * w * 3 →
      parse_ascii_netpbm (asciiFileP3 w h k samples) = none) ∧
    (∀ (w h k : Nat) (data : List Nat), data.length ≠ h * w →
      parse_binary_netpbm (binFileP5 w h k data) = none) := by
  refine ⟨?_, ?_, ?_⟩
  · intro w h k samples hne
    unfold parse_ascii_netpbm
    rw [asciiVals_fileP2, parseAsciiVals_P2]
    unfold reshape2
    rw [if_neg hne]
  · intro w h k samples hne
    unfold parse_ascii_netpbm
    rw [asciiVals_fileP3, parseAsciiVals_P3]
    unfold reshape3
    rw [if_neg hne]
  · intro w h k data hne
    rw [parse_binary_P5]
    unfold reshape2
    rw [if_neg hne]

/-- C9 witness: surplus data makes each decoder fail on concrete 1×1
files carrying two (respectively four) samples. -/
theorem decode_exact_count_witness :
    parse_ascii_netpbm (asciiFileP2 1 1 9 [3, 4]) = none ∧
    parse_ascii_netpbm (asciiFileP3 1 1 9 [1, 2, 3, 4]) = none ∧
    parse_binary_netpbm (binFileP5 1 1 255 [7, 8]) = none :=
  ⟨decode_exact_count.1 1 1 9 [3, 4] (by decide),
   decode_exact_count.2.1 1 1 9 [1, 2, 3, 4] (by decide),
   decode_exact_count.2.2 1 1 255 [7, 8] (by decide)⟩

/-- C5 (amended): the code defines no dedicated error classes; decode
fails (with built-in ValueError/IndexError) when the input holds fewer
than two bytes, or when the second byte of the magic token is not an
ASCII digit — the first byte is never inspected, so an unrecognized magic
such as `X1` is accepted (see the counterexample) — and, for a recognized
digit, when fewer sample tokens are present than `w*h` demands, through
the failing numpy reshape. -/
theorem decode_failure_modes :
    (read_netpbm [] = none ∧ ∀ b : Nat, read_netpbm [b] = none) ∧
    (∀ (b0 b1 : Nat) (rest : List Nat), b0 < 128 → b1 < 128 →
      parseDigit (Char.ofNat b1) = none → read_netpbm (b0 :: b1 :: rest) = none) ∧
    (∀ (w h k : Nat) (samples : List Nat), samples.length < h * w →
      parse_ascii_netpbm (asciiFileP2 w h k samples) = none) := by
  refine ⟨⟨rfl, fun b => rfl⟩, ?_, ?_⟩
  · intro b0 b1 rest hb0 hb1 hpd
    simp only [read_netpbm]
    rw [if_pos (show b0 < 128 ∧ b1 < 128 from ⟨hb0, hb1⟩)]
    simp only [hpd]
  · intro w h k samples hlt
    unfold parse_ascii_netpbm
    rw [asciiVals_fileP2, parseAsciiVals_P2]
    unfold reshape2
    rw [if_neg (by omega)]

/-- C5 witness: the failure-mode theorem instantiated on a file whose
magic's second byte is the non-digit `X`, and on a 2×2 graymap carrying
a single sample token. -/
theorem decode_failure_modes_witness :
    read_netpbm [] = none ∧
    read_netpbm ['P'.toNat, 'X'.toNat, 10] = none ∧
    parse_ascii_netpbm (asciiFileP2 2 2 9 [5]) = none :=
  ⟨decode_failure_modes.1.1,
   decode_failure_modes.2.1 'P'.toNat 'X'.toNat [10] (by decide) (by decide)
     (by decide),
   decode_failure_modes.2.2 2 2 9 [5] (by decide)⟩

/-- C5 counterexample: decode raises no `MalformedHeaderError` on an
unrecognized magic number.  The file `X1\n1 1\n0\n` has magic token `X1`,
yet `read_netpbm` inspects only the second byte (`1`), dispatches to the
ASCII parser, and decodes successfully as a bitmap. -/
theorem decode_accepts_bad_magic :
    read_netpbm (charsToBytes ("X1\n1 1\n0\n".toList)) =
      some ⟨1, 1, Mat.gray [[0]]⟩ := by
  decide

/-- C4: evaluation at the failing input.  Decoding the file made of the
header `P4\n1 1\n` followed by the byte `0x80` fails (`none`):
`_parse_binary_netpbm` halves the magic digit (`int(4 / 2) = 2`, not the
Bitmap ASCII magic 1, contradicting the source comment "change to
corresponding ASCII magic number"), reads the width and height from
separate lines so `int("1 1")` raises ValueError, and never unpacks bits;
the claim expects the Raster `[[1]]`. -/
theorem binary_bitmap_example_eval :
    read_netpbm (charsToBytes ("P4\n1 1\n".toList) ++ [128]) = none := by
  decide

/-! Comment stripping (claim C10). -/

theorem ws_ne_hash {c : Char} (h : c.isWhitespace = true) : (c != '#') = true := by
  by_cases hc : c = '#'
  · subst hc
    exact absurd h (by decide)
  · simp [bne_iff_ne, hc]

theorem flatten_nil_of {α : Type} (L : List (List α)) (h : ∀ x ∈ L, x = []) :
    L.flatten = [] :=
  List.flatten_eq_nil_iff.mpr h

theorem lineTokens_comment {l : List Char} (h : isCommentLine l = true) :
    lineTokens l = [] := by
  unfold isCommentLine at h
  split at h
  · next tail heq =>
    have hl : l = l.takeWhile Char.isWhitespace ++ '#' :: tail := by
      rw [← heq]
      exact (List.takeWhile_append_dropWhile Char.isWhitespace l).symm
    have hws : ∀ a ∈ l.takeWhile Char.isWhitespace, a.isWhitespace = true :=
      fun a ha => List.mem_takeWhile_imp ha
    unfold lineTokens stripComment
    rw [hl, takeWhile_append_stop _ tail (fun a ha => ws_ne_hash (hws a ha))
      (by decide)]
    exact wordsAux_all_ws _ hws
  · exact absurd h (by simp)

/-- C10: `_parse_ascii_netpbm` strips `#` comments on every line before
tokenization, including the line carrying the magic number: prepending
whole-line comments in front of any input, or appending an inline comment
to a line without `#` (such as the magic line), leaves the decoded result
unchanged. -/
theorem comment_stripping :
    (∀ (pre f : List (List Char)), (∀ l ∈ pre, isCommentLine l = true) →
      parse_ascii_netpbm (pre ++ f) = parse_ascii_netpbm f) ∧
    (∀ (l c : List Char) (rest : List (List Char)), '#' ∉ l →
      parse_ascii_netpbm ((l ++ '#' :: c) :: rest) =
        parse_ascii_netpbm (l :: rest)) := by
  constructor
  · intro pre f hpre
    unfold parse_ascii_netpbm asciiVals
    rw [List.map_append, List.flatten_append,
      flatten_nil_of (pre.map lineTokens) ?_, List.nil_append]
    intro x hx
    rw [List.mem_map] at hx
    obtain ⟨l, hl, rfl⟩ := hx
    exact lineTokens_comment (hpre l hl)
  · intro l c rest hnol
    have hne : ∀ a ∈ l, (a != '#') = true := by
      intro a ha
      rw [bne_iff_ne]
      intro rfl0
      exact hnol (rfl0 ▸ ha)
    unfold parse_ascii_netpbm asciiVals
    simp only [List.map_cons]
    have ht : lineTokens (l ++ '#' :: c) = lineTokens l := by
      unfold lineTokens
      rw [stripComment_inline hne, stripComment_no_hash hne]
    rw [ht]

/-- C10 witness: the comment theorem instantiated on a concrete bitmap
file, with a whole-line comment prepended and an inline comment appended
to the magic line. -/
theorem comment_stripping_witness :
    parse_ascii_netpbm ([" # size".toList] ++
        [['P', '1'], "1 1".toList, ['1']]) =
      parse_ascii_netpbm [['P', '1'], "1 1".toList, ['1']] ∧
    parse_ascii_netpbm ((['P', '1'] ++ '#' :: "x".toList) ::
        ["1 1".toList, ['1']]) =
      parse_ascii_netpbm (['P', '1'] :: ["1 1".toList, ['1']]) :=
  ⟨comment_stripping.1 [" # size".toList] [['P', '1'], "1 1".toList, ['1']]
     (by decide),
   comment_stripping.2 ['P', '1'] "x".toList ["1 1".toList, ['1']] (by decide)⟩
